import Mathlib

/-!
Verification development for the grid-forge collapse engine.

The definitions below are shallow embeddings of the 2D core of the
repository: positions, sizes and offsets (`src/core/size/two_d.rs`),
directions and marching (`src/core/direction/two_d.rs`), the option
bookkeeping (`src/gen/collapse/option/mod.rs`), the collapsible tile and its
collapse step (`src/gen/collapse/tile.rs`), the propagator
(`src/gen/collapse/queue/propagator.rs`), the position queue
(`src/gen/collapse/queue/position.rs` and `src/gen/collapse/two_d.rs`), the
entropy queue (`src/gen/collapse/queue/entrophy.rs`) and the collapse error
type (`src/gen/collapse/error.rs`).

Machine integers (`u32`, `usize`) are modelled as `Nat`; the `f32` values
(`weight_log`, entropy noise) are modelled in exact arithmetic over `ℚ`.
-/

namespace GridForge

/-- Grid position in two dimensions (`GridPosition2D`, coordinates `u32`
modelled as `Nat`). -/
structure GridPosition2D where
  x : Nat
  y : Nat
deriving DecidableEq, Repr

/-- Grid size in two dimensions (`GridSize2D` with bounds `x`, `y`; the
`x_usize` cache and `center` fields are recomputed on demand). -/
structure GridSize2D where
  x : Nat
  y : Nat
deriving DecidableEq, Repr

/-- `GridSize2D::is_position_valid`: both coordinates strictly below the
bounds. -/
def GridSize2D.isPositionValid (s : GridSize2D) (p : GridPosition2D) : Bool :=
  decide (p.x < s.x) && decide (p.y < s.y)

/-- `GridSize2D::offset`: `pos.y() as usize * self.x_usize + pos.x() as usize`. -/
def GridSize2D.offset (s : GridSize2D) (p : GridPosition2D) : Nat :=
  p.y * s.x + p.x

/-- `GridSize2D::pos_from_offset`: `y = offset / x_usize`, `x = offset % x_usize`. -/
def GridSize2D.posFromOffset (s : GridSize2D) (o : Nat) : GridPosition2D :=
  ⟨o % s.x, o / s.x⟩

/-- `GridSize2D::max_tile_count`: `(x * y) as usize`. -/
def GridSize2D.maxTileCount (s : GridSize2D) : Nat :=
  s.x * s.y

/-- C7: position↔offset round trip. For every grid size, every valid
position `p` satisfies `pos_from_offset (offset p) = p`, and every valid
offset `o` (strictly below the cell count) satisfies
`offset (pos_from_offset o) = o`. -/
theorem offset_posFromOffset_roundtrip (s : GridSize2D) (p : GridPosition2D) (o : Nat)
    (hp : s.isPositionValid p = true) (ho : o < s.maxTileCount) :
    s.posFromOffset (s.offset p) = p ∧ s.offset (s.posFromOffset o) = o := by
  rw [GridSize2D.isPositionValid, Bool.and_eq_true, decide_eq_true_eq, decide_eq_true_eq] at hp
  obtain ⟨hx, hy⟩ := hp
  constructor
  · have hxpos : 0 < s.x := Nat.lt_of_le_of_lt (Nat.zero_le _) hx
    unfold GridSize2D.posFromOffset GridSize2D.offset
    have hmod : (p.y * s.x + p.x) % s.x = p.x := by
      rw [Nat.mul_comm, Nat.mul_add_mod]
      exact Nat.mod_eq_of_lt hx
    have hdiv : (p.y * s.x + p.x) / s.x = p.y := by
      rw [Nat.mul_comm, Nat.mul_add_div hxpos]
      rw [Nat.div_eq_of_lt hx, Nat.add_zero]
    cases p
    simp_all
  · unfold GridSize2D.maxTileCount at ho
    have hxpos : 0 < s.x := by
      rcases Nat.eq_zero_or_pos s.x with h0 | h
      · rw [h0, Nat.zero_mul] at ho
        exact absurd ho (Nat.not_lt_zero o)
      · exact h
    unfold GridSize2D.posFromOffset GridSize2D.offset
    simp only
    rw [Nat.mul_comm (o / s.x) s.x]
    exact Nat.div_add_mod o s.x

/-- Witness for C7 at size 3×2, position (1,1), offset 4. -/
theorem offset_posFromOffset_roundtrip_witness :
    (GridSize2D.mk 3 2).isPositionValid ⟨1, 1⟩ = true ∧ (4 : Nat) < (GridSize2D.mk 3 2).maxTileCount ∧
      ((GridSize2D.mk 3 2).posFromOffset ((GridSize2D.mk 3 2).offset ⟨1, 1⟩) = ⟨1, 1⟩ ∧
        (GridSize2D.mk 3 2).offset ((GridSize2D.mk 3 2).posFromOffset 4) = 4) :=
  ⟨by decide, by decide,
    offset_posFromOffset_roundtrip (GridSize2D.mk 3 2) ⟨1, 1⟩ 4 (by decide) (by decide)⟩

/-- Axis-aligned directions in 2D (`Direction2D`). -/
inductive Direction2D where
  | Up
  | Down
  | Left
  | Right
deriving DecidableEq, Repr

/-- `Direction2D::opposite`. -/
def Direction2D.opposite : Direction2D → Direction2D
  | .Up => .Down
  | .Down => .Up
  | .Left => .Right
  | .Right => .Left

/-- `Direction2D::as_idx`: the `repr(u8)` discriminant. -/
def Direction2D.asIdx : Direction2D → Nat
  | .Up => 0
  | .Down => 1
  | .Left => 2
  | .Right => 3

/-- `Direction2D::all()`: the fixed iteration order `[Up, Down, Left, Right]`. -/
def Direction2D.all : List Direction2D :=
  [.Up, .Down, .Left, .Right]

/-- `Direction2D::march_step`: neighbour position along the direction, `None`
when the step would cross the bound (`y == 0` for `Up`, `y + 1 == size.y` for
`Down`, `x == 0` for `Left`, `x + 1 == size.x` for `Right`). -/
def Direction2D.marchStep (d : Direction2D) (p : GridPosition2D) (s : GridSize2D) :
    Option GridPosition2D :=
  match d with
  | .Up => if p.y = 0 then none else some ⟨p.x, p.y - 1⟩
  | .Down => if p.y + 1 = s.y then none else some ⟨p.x, p.y + 1⟩
  | .Left => if p.x = 0 then none else some ⟨p.x - 1, p.y⟩
  | .Right => if p.x + 1 = s.x then none else some ⟨p.x + 1, p.y⟩

/-- C8: `march_step` never wraps. For a valid start position: stepping toward
the lower end of an axis from coordinate 0 yields `none`; stepping toward the
upper end from coordinate `size_i - 1` yields `none`; in all other cases the
result is `some` of the position shifted by one along that axis, and that
result is again within bounds. -/
theorem marchStep_no_wrap (d : Direction2D) (p : GridPosition2D) (s : GridSize2D)
    (hv : s.isPositionValid p = true) :
    (match d with
      | .Up => if p.y = 0 then d.marchStep p s = none
          else d.marchStep p s = some ⟨p.x, p.y - 1⟩
      | .Down => if p.y = s.y - 1 then d.marchStep p s = none
          else d.marchStep p s = some ⟨p.x, p.y + 1⟩
      | .Left => if p.x = 0 then d.marchStep p s = none
          else d.marchStep p s = some ⟨p.x - 1, p.y⟩
      | .Right => if p.x = s.x - 1 then d.marchStep p s = none
          else d.marchStep p s = some ⟨p.x + 1, p.y⟩) ∧
    (∀ q, d.marchStep p s = some q → s.isPositionValid q = true) := by
  rw [GridSize2D.isPositionValid, Bool.and_eq_true, decide_eq_true_eq, decide_eq_true_eq] at hv
  obtain ⟨hx, hy⟩ := hv
  cases d <;>
    simp only [Direction2D.marchStep, GridSize2D.isPositionValid] <;>
    constructor <;>
    first
      | (intro q hq
         split at hq <;> simp_all <;> omega)
      | (split <;> [skip; split] <;> simp_all <;> omega)
      | (split <;> simp_all <;> omega)

/-- Witness for C8 with direction `Up` at position (0,1) in a 2×2 grid. -/
theorem marchStep_no_wrap_witness :
    (GridSize2D.mk 2 2).isPositionValid ⟨0, 1⟩ = true ∧
      Direction2D.Up.marchStep ⟨0, 1⟩ (GridSize2D.mk 2 2) = some ⟨0, 0⟩ := by
  refine ⟨by decide, ?_⟩
  have h := marchStep_no_wrap Direction2D.Up ⟨0, 1⟩ (GridSize2D.mk 2 2) (by decide)
  simpa using h.1

/-- Kinds of collapse failure (`CollapseErrorKind`). -/
inductive CollapseErrorKind where
  | Collapse
  | Init
  | Propagation
deriving DecidableEq, Repr

/-- `CollapseError`: offending position, failure kind and iteration count. -/
structure CollapseError where
  pos : GridPosition2D
  kind : CollapseErrorKind
  iter : Nat
deriving DecidableEq, Repr

/-- `CollapseError::new`. -/
def CollapseError.new (pos : GridPosition2D) (kind : CollapseErrorKind) (iter : Nat) :
    CollapseError :=
  ⟨pos, kind, iter⟩

/-- `CollapseError::failed_pos`. -/
def CollapseError.failedPos (e : CollapseError) : GridPosition2D :=
  e.pos

/-- `CollapseError::failed_iter`. -/
def CollapseError.failedIter (e : CollapseError) : Nat :=
  e.iter

/-- `CollapseError::is_probabilistic`: `!matches!(self.kind, Init)`. -/
def CollapseError.isProbabilistic (e : CollapseError) : Bool :=
  !(decide (e.kind = CollapseErrorKind.Init))

/-- C9: every `CollapseError` carries the offending position and the
iteration count, retrievable via `failed_pos` / `failed_iter`, and
`is_probabilistic` is `true` exactly for the `Collapse` and `Propagation`
kinds and `false` for `Init`. -/
theorem collapseError_accessors_and_probabilistic (p : GridPosition2D)
    (k : CollapseErrorKind) (i : Nat) :
    (CollapseError.new p k i).failedPos = p ∧
      (CollapseError.new p k i).failedIter = i ∧
      ((CollapseError.new p k i).isProbabilistic = true ↔
        (k = CollapseErrorKind.Collapse ∨ k = CollapseErrorKind.Propagation)) := by
  refine ⟨rfl, rfl, ?_⟩
  cases k <;> simp [CollapseError.new, CollapseError.isProbabilistic]

/-- `OrderedFloat::EPSILON = 0.00001`, in exact rational arithmetic. -/
def epsQ : ℚ := 1 / 100000

/-- Truncation toward zero, the rounding underlying the Rust float remainder. -/
def truncQ (q : ℚ) : ℤ :=
  if 0 ≤ q then ⌊q⌋ else ⌈q⌉

/-- Rust `a % b` on floats (remainder with truncated quotient), modelled in
exact rational arithmetic. -/
def rustRem (a b : ℚ) : ℚ :=
  a - b * truncQ (a / b)

/-- The expression `(w % EPSILON) * EPSILON` computed by both
`OptionWeights::calc_weigth` and `OptionWeights::round`. -/
def roundEps (w : ℚ) : ℚ :=
  rustRem w epsQ * epsQ

/-- `OptionWeights::calc_weigth` applied to a count `w`, with the value of
`w.log2()` supplied explicitly as `log2w` (exact when `w` is a power of two);
the body is `(w * log2w % EPSILON) * EPSILON`. -/
def calcWeigth (w log2w : ℚ) : ℚ :=
  roundEps (w * log2w)

/-- `OptionWeights` = `(u32, f32)`, modelled as `ℕ × ℚ`. -/
abbrev OptionWeights := Nat × ℚ

/-- `OptionWeights::new(option_weight)`, with `log2` of the count supplied
explicitly as `log2c`. -/
def OptionWeights.new (c : Nat) (log2c : ℚ) : OptionWeights :=
  (c, calcWeigth c log2c)

/-- `Default` for `OptionWeights`: `(0, 0.0)`. -/
def OptionWeights.zero : OptionWeights :=
  (0, 0)

/-- `Add` for `OptionWeights`: componentwise. -/
def OptionWeights.add (a b : OptionWeights) : OptionWeights :=
  (a.1 + b.1, a.2 + b.2)

/-- `SubAssign` for `OptionWeights`: componentwise subtraction followed by
`round()`, which sets the second component to `(w % EPSILON) * EPSILON`. -/
def OptionWeights.subAssign (a b : OptionWeights) : OptionWeights :=
  (a.1 - b.1, roundEps (a.2 - b.2))

/-- C4: `OptionWeights::new` does not store `count * log2(count)`. At
count 4 (where `log2 4 = 2` exactly, also in `f32`), the claim demands the
second component `4 * log2 4 = 8`, but `calc_weigth` evaluates
`(8 % 0.00001) * 0.00001 = 0`: the intended quantization to a multiple of
`EPSILON` is miswritten and collapses the weight to (almost) zero. -/
theorem optionWeights_new_at_four :
    OptionWeights.new 4 2 = ((4 : Nat), (0 : ℚ)) ∧ (4 : ℚ) * 2 ≠ 0 := by
  constructor
  · show (4, calcWeigth 4 2) = ((4 : Nat), (0 : ℚ))
    have h8 : ((4 : ℚ) * 2) = 8 := by norm_num
    have hdiv : ((8 : ℚ) / epsQ) = 800000 := by norm_num [epsQ]
    have htrunc : truncQ ((8 : ℚ) / epsQ) = 800000 := by
      rw [hdiv, truncQ, if_pos (by norm_num)]
      norm_num
    have : calcWeigth 4 2 = 0 := by
      rw [calcWeigth, roundEps, rustRem, h8, htrunc]
      norm_num [epsQ]
    rw [this]
  · norm_num

/-- The all-zero direction table `EMPTY_DIR_TABLE`. -/
def emptyDirTable : List Nat :=
  [0, 0, 0, 0]

/-- `WaysToBeOption`: per option index, a direction table of counts. -/
abbrev WaysToBeOption := List (List Nat)

/-- The count stored for option `i` from direction `d` (`ways[i][d]`). -/
def waysGet (w : WaysToBeOption) (i : Nat) (d : Direction2D) : Nat :=
  (w.getD i emptyDirTable).getD d.asIdx 0

/-- `WaysToBeOption::decrement`: no-op returning `false` when the stored
count is zero; otherwise decrement, and when the new count reaches zero,
replace the whole row by `EMPTY_DIR_TABLE` and return `true`. -/
def WaysToBeOption.decrement (w : WaysToBeOption) (i : Nat) (d : Direction2D) :
    WaysToBeOption × Bool :=
  if waysGet w i d = 0 then (w, false)
  else
    let w1 := w.set i ((w.getD i emptyDirTable).set d.asIdx (waysGet w i d - 1))
    if 0 < waysGet w1 i d then (w1, false)
    else (w1.set i emptyDirTable, true)

/-- `WaysToBeOption::iter_possible`: option indices whose row has a nonzero
entry for the first direction (`Up`), in ascending index order. -/
def WaysToBeOption.iterPossible (w : WaysToBeOption) : List Nat :=
  (List.range w.length).filter (fun i => decide ((w.getD i emptyDirTable).getD 0 0 ≠ 0))

theorem listGetD_set_self {α : Type} (l : List α) (i : Nat) (a dflt : α)
    (h : i < l.length) : (l.set i a).getD i dflt = a := by
  induction l generalizing i with
  | nil => simp at h
  | cons x xs ih =>
    cases i with
    | zero => rfl
    | succ n => exact ih n (by simpa using h)

theorem listGetD_set_ne {α : Type} (l : List α) (i j : Nat) (a dflt : α)
    (h : i ≠ j) : (l.set i a).getD j dflt = l.getD j dflt := by
  induction l generalizing i j with
  | nil => simp [List.set]
  | cons x xs ih =>
    cases i with
    | zero =>
      cases j with
      | zero => exact absurd rfl h
      | succ m => rfl
    | succ n =>
      cases j with
      | zero => rfl
      | succ m => exact ih n m (by omega)

theorem listGetD_of_length_le {α : Type} (l : List α) (i : Nat) (dflt : α)
    (h : l.length ≤ i) : l.getD i dflt = dflt := by
  induction l generalizing i with
  | nil => cases i <;> rfl
  | cons x xs ih =>
    cases i with
    | zero => simp at h
    | succ n => exact ih n (by simpa using h)

theorem direction_asIdx_inj (d e : Direction2D) (h : d ≠ e) : d.asIdx ≠ e.asIdx := by
  revert h
  cases d <;> cases e <;> decide

theorem emptyDirTable_getD (e : Direction2D) : emptyDirTable.getD e.asIdx 0 = 0 := by
  cases e <;> rfl

/-- C6: behaviour of `WaysToBeOption::decrement` for a valid option index.
If `ways[i][d]` is 0 it changes nothing and returns `false`; otherwise it
decrements the count by one, returns `true` exactly when the new count is 0,
in which case every direction entry of row `i` becomes 0, and it leaves every
other entry of the table unchanged. -/
theorem ways_decrement_spec (w : WaysToBeOption) (i : Nat) (d : Direction2D)
    (hi : i < w.length) :
    (waysGet w i d = 0 → WaysToBeOption.decrement w i d = (w, false)) ∧
    (waysGet w i d ≠ 0 →
      ((WaysToBeOption.decrement w i d).2 = decide (waysGet w i d = 1) ∧
        waysGet (WaysToBeOption.decrement w i d).1 i d = waysGet w i d - 1 ∧
        (∀ j e, j ≠ i → waysGet (WaysToBeOption.decrement w i d).1 j e = waysGet w j e) ∧
        (waysGet w i d = 1 → ∀ e, waysGet (WaysToBeOption.decrement w i d).1 i e = 0) ∧
        (waysGet w i d ≠ 1 → ∀ e, e ≠ d →
          waysGet (WaysToBeOption.decrement w i d).1 i e = waysGet w i e))) := by
  constructor
  · intro h0
    simp [WaysToBeOption.decrement, h0]
  · intro hne
    have hd : d.asIdx < (w.getD i emptyDirTable).length := by
      by_contra hcon
      exact hne (listGetD_of_length_le _ _ _ (Nat.le_of_not_lt hcon))
    have hw1get : waysGet (w.set i ((w.getD i emptyDirTable).set d.asIdx
        (waysGet w i d - 1))) i d = waysGet w i d - 1 := by
      rw [waysGet, listGetD_set_self _ _ _ _ hi, listGetD_set_self _ _ _ _ hd]
    by_cases hv1 : waysGet w i d = 1
    · have hzero : ¬ (0 < waysGet (w.set i ((w.getD i emptyDirTable).set d.asIdx
          (waysGet w i d - 1))) i d) := by
        rw [hw1get, hv1]
        decide
      have hres : WaysToBeOption.decrement w i d =
          ((w.set i ((w.getD i emptyDirTable).set d.asIdx (waysGet w i d - 1))).set i
            emptyDirTable, true) := by
        simp only [WaysToBeOption.decrement, if_neg hne, if_neg hzero]
      refine ⟨by rw [hres]; simp [hv1], ?_, ?_, ?_, fun h _ _ => absurd hv1 h⟩
      · rw [hres, hv1]
        show waysGet _ i d = 0
        rw [waysGet, listGetD_set_self _ _ _ _ (by simpa using hi), emptyDirTable_getD]
      · intro j e hji
        rw [hres]
        show waysGet _ j e = waysGet w j e
        rw [waysGet, listGetD_set_ne _ _ _ _ _ (fun h => hji h.symm),
          listGetD_set_ne _ _ _ _ _ (fun h => hji h.symm)]
        rfl
      · intro _ e
        rw [hres]
        show waysGet _ i e = 0
        rw [waysGet, listGetD_set_self _ _ _ _ (by simpa using hi), emptyDirTable_getD]
    · have hpos : 0 < waysGet (w.set i ((w.getD i emptyDirTable).set d.asIdx
          (waysGet w i d - 1))) i d := by
        rw [hw1get]
        omega
      have hres : WaysToBeOption.decrement w i d =
          (w.set i ((w.getD i emptyDirTable).set d.asIdx (waysGet w i d - 1)), false) := by
        simp only [WaysToBeOption.decrement, if_neg hne, if_pos hpos]
      refine ⟨by rw [hres]; simp [hv1], by rw [hres]; exact hw1get, ?_, fun h => absurd h hv1, ?_⟩
      · intro j e hji
        rw [hres]
        show waysGet _ j e = waysGet w j e
        rw [waysGet, listGetD_set_ne _ _ _ _ _ (fun h => hji h.symm)]
        rfl
      · intro _ e hed
        rw [hres]
        show waysGet _ i e = waysGet w i e
        rw [waysGet, listGetD_set_self _ _ _ _ hi,
          listGetD_set_ne _ _ _ _ _ (direction_asIdx_inj d e (fun h => hed h.symm))]
        rfl

/-- Witness for C6: a concrete two-row table, decremented at a count of 2
(not eliminated) via the theorem. -/
theorem ways_decrement_spec_witness :
    waysGet [[2, 1, 1, 1], [1, 1, 1, 1]] 0 Direction2D.Up ≠ 0 ∧
      (WaysToBeOption.decrement [[2, 1, 1, 1], [1, 1, 1, 1]] 0 Direction2D.Up).2 =
        decide (waysGet [[2, 1, 1, 1], [1, 1, 1, 1]] 0 Direction2D.Up = 1) :=
  ⟨by decide,
    ((ways_decrement_spec [[2, 1, 1, 1], [1, 1, 1, 1]] 0 Direction2D.Up (by decide)).2
      (by decide)).1⟩

/-- Minimal `PerOptionData`: per-option directional adjacency lists (internal
indices) and per-option weights, as consumed by the collapse and propagation
steps. -/
structure PerOptionData where
  adjacencies : List (List (List Nat))
  optWithWeight : List OptionWeights
deriving DecidableEq, Repr

/-- `PerOptionData::get_all_enabled_in_direction`: `adjacencies[option][direction]`. -/
def PerOptionData.getAllEnabledInDirection (o : PerOptionData) (i : Nat) (d : Direction2D) :
    List Nat :=
  (o.adjacencies.getD i []).getD d.asIdx []

/-- `PerOptionData::get_weights`: `opt_with_weight[option]`. -/
def PerOptionData.getWeights (o : PerOptionData) (i : Nat) : OptionWeights :=
  o.optWithWeight.getD i OptionWeights.zero

/-- `CollapsibleTile2D`: collapsed option (if any), remaining option count,
ways-to-be-option table, aggregate weight and entropy tiebreak noise. -/
structure CollapsibleTile2D where
  collapsedOption : Option Nat
  numOptions : Nat
  waysToBeOption : WaysToBeOption
  weight : OptionWeights
  entrophyNoise : ℚ
deriving DecidableEq, Repr

/-- `is_collapsed`: `collapse_idx().is_some()`. -/
def CollapsibleTile2D.isCollapsed (t : CollapsibleTile2D) : Bool :=
  t.collapsedOption.isSome

/-- `has_compatible_options`: `num_possible_options() > 0`. -/
def CollapsibleTile2D.hasCompatibleOptions (t : CollapsibleTile2D) : Bool :=
  decide (0 < t.numOptions)

/-- `remove_option`: decrement the remaining count and subtract the weights
(with the rounding of `SubAssign`). -/
def CollapsibleTile2D.removeOption (t : CollapsibleTile2D) (weights : OptionWeights) :
    CollapsibleTile2D :=
  { t with numOptions := t.numOptions - 1, weight := OptionWeights.subAssign t.weight weights }

/-- `mark_collapsed`: set the collapse index, zero the remaining count and
the weight. -/
def CollapsibleTile2D.markCollapsed (t : CollapsibleTile2D) (c : Nat) : CollapsibleTile2D :=
  { t with collapsedOption := some c, numOptions := 0, weight := OptionWeights.zero }

/-- `weight_sum`: first component of the aggregate weight. -/
def CollapsibleTile2D.weightSum (t : CollapsibleTile2D) : Nat :=
  t.weight.1

/-- The selection loop of `collapse_gather_removed`: walk the options,
adding each count to `currentSum` first; an option is skipped (and pushed to
the removed list) while an option is already chosen or `random > currentSum`,
and chosen otherwise. -/
def collapseScan (wcount : Nat → Nat) (random : Nat) :
    List Nat → Nat → Option Nat → Option Nat × List Nat
  | [], _, chosen => (chosen, [])
  | i :: rest, currentSum, chosen =>
    let s := currentSum + wcount i
    if chosen.isSome || decide (s < random) then
      let r := collapseScan wcount random rest s chosen
      (r.1, i :: r.2)
    else
      collapseScan wcount random rest s (some i)

/-- `collapse_gather_removed`, with the uniform draw `random` from
`[0, weight_sum)` passed in as a parameter; the result is the collapsed tile
together with the removed options, or `none` where the code would panic in
`expect` because no option was chosen. -/
def CollapsibleTile2D.collapseGatherRemoved (t : CollapsibleTile2D)
    (optionsData : PerOptionData) (random : Nat) :
    Option (CollapsibleTile2D × List Nat) :=
  match collapseScan (fun i => (optionsData.getWeights i).1) random
      (WaysToBeOption.iterPossible t.waysToBeOption) 0 none with
  | (some c, out) => some (t.markCollapsed c, out)
  | (none, _) => none

/-- Selection rule as the claim words it: the first option whose running
total strictly exceeds `r`. -/
def chooseStrictSpec (wcount : Nat → Nat) (r : Nat) : List Nat → Nat → Option Nat
  | [], _ => none
  | i :: rest, acc =>
    if r < acc + wcount i then some i else chooseStrictSpec wcount r rest (acc + wcount i)

/-- Selection rule actually implemented: the first option whose running
total is greater than or equal to `r`. -/
def chooseGeSpec (wcount : Nat → Nat) (r : Nat) : List Nat → Nat → Option Nat
  | [], _ => none
  | i :: rest, acc =>
    if r ≤ acc + wcount i then some i else chooseGeSpec wcount r rest (acc + wcount i)

/-- Sum of the weight counts over a list of options. -/
def sumCounts (wcount : Nat → Nat) (l : List Nat) : Nat :=
  (l.map wcount).sum

theorem collapseScan_some (wcount : Nat → Nat) (random : Nat) (c : Nat) :
    ∀ (l : List Nat) (acc : Nat), collapseScan wcount random l acc (some c) = (some c, l) := by
  intro l
  induction l with
  | nil => intro acc; rfl
  | cons i rest ih =>
    intro acc
    simp only [collapseScan, Option.isSome_some, Bool.true_or, if_true, ih]

theorem collapseScan_fst (wcount : Nat → Nat) (random : Nat) :
    ∀ (l : List Nat) (acc : Nat),
      (collapseScan wcount random l acc none).1 = chooseGeSpec wcount random l acc := by
  intro l
  induction l with
  | nil => intro acc; rfl
  | cons i rest ih =>
    intro acc
    by_cases h : random ≤ acc + wcount i
    · have hlt : ¬ (acc + wcount i < random) := by omega
      simp only [collapseScan, chooseGeSpec, Option.isSome_none, Bool.false_or,
        decide_eq_true_eq, if_neg hlt, if_pos h, collapseScan_some]
    · have hlt : acc + wcount i < random := by omega
      simp only [collapseScan, chooseGeSpec, Option.isSome_none, Bool.false_or,
        decide_eq_true_eq, if_pos hlt, if_neg h, ih]

theorem chooseGeSpec_mem (wcount : Nat → Nat) (random : Nat) :
    ∀ (l : List Nat) (acc c : Nat), chooseGeSpec wcount random l acc = some c → c ∈ l := by
  intro l
  induction l with
  | nil => intro acc c h; exact absurd h (by simp [chooseGeSpec])
  | cons i rest ih =>
    intro acc c h
    rw [chooseGeSpec] at h
    split at h
    · cases h
      exact List.mem_cons_self _ _
    · exact List.mem_cons_of_mem _ (ih _ c h)

theorem chooseGeSpec_total (wcount : Nat → Nat) (random : Nat) :
    ∀ (l : List Nat) (acc : Nat), l ≠ [] → random ≤ acc + sumCounts wcount l →
      ∃ c, chooseGeSpec wcount random l acc = some c := by
  intro l
  induction l with
  | nil => intro acc h; exact absurd rfl h
  | cons i rest ih =>
    intro acc _ hsum
    by_cases h : random ≤ acc + wcount i
    · exact ⟨i, by rw [chooseGeSpec, if_pos h]⟩
    · cases rest with
      | nil =>
        exfalso
        apply h
        simpa [sumCounts] using hsum
      | cons j tail =>
        obtain ⟨c, hc⟩ := ih (acc + wcount i) (by simp) (by
          simp only [sumCounts, List.map_cons, List.sum_cons] at hsum ⊢
          omega)
        exact ⟨c, by rw [chooseGeSpec, if_neg h]; exact hc⟩

theorem collapseScan_snd (wcount : Nat → Nat) (random : Nat) :
    ∀ (l : List Nat) (acc c : Nat), l.Nodup →
      chooseGeSpec wcount random l acc = some c →
      (collapseScan wcount random l acc none).2 = l.filter (fun x => decide (x ≠ c)) := by
  intro l
  induction l with
  | nil => intro acc c _ h; exact absurd h (by simp [chooseGeSpec])
  | cons i rest ih =>
    intro acc c hnd h
    rw [List.nodup_cons] at hnd
    rw [chooseGeSpec] at h
    split at h
    · cases h
      rename_i hle
      have hlt : ¬ (acc + wcount i < random) := by omega
      simp only [collapseScan, Option.isSome_none, Bool.false_or, decide_eq_true_eq,
        if_neg hlt, collapseScan_some]
      rw [List.filter_cons_of_neg (by simp)]
      symm
      rw [List.filter_eq_self]
      intro x hx
      simp only [decide_eq_true_eq]
      intro hxc
      exact hnd.1 (hxc ▸ hx)
    · rename_i hle
      have hlt : acc + wcount i < random := by omega
      have hcmem : c ∈ rest := chooseGeSpec_mem wcount random rest _ c h
      have hic : i ≠ c := fun hh => hnd.1 (hh ▸ hcmem)
      simp only [collapseScan, Option.isSome_none, Bool.false_or, decide_eq_true_eq,
        if_pos hlt]
      rw [ih _ c hnd.2 h, List.filter_cons_of_pos (by simpa using hic)]

/-- C1 (amended): with `weight_sum > 0` and `r` drawn from
`[0, weight_sum)` (equal, by the weight invariant, to the sum of counts over
the possible options), `collapse_gather_removed` walks the possible options
in ascending index order and chooses the first option whose running total is
greater than or equal to `r`; it marks the cell collapsed with that option
and returns exactly the possible options that were not chosen. -/
theorem collapse_gather_removed_correct (t : CollapsibleTile2D) (od : PerOptionData)
    (r : Nat)
    (hr : r < sumCounts (fun i => (od.getWeights i).1)
      (WaysToBeOption.iterPossible t.waysToBeOption)) :
    ∃ c, chooseGeSpec (fun i => (od.getWeights i).1) r
        (WaysToBeOption.iterPossible t.waysToBeOption) 0 = some c ∧
      c ∈ WaysToBeOption.iterPossible t.waysToBeOption ∧
      t.collapseGatherRemoved od r =
        some (t.markCollapsed c,
          (WaysToBeOption.iterPossible t.waysToBeOption).filter (fun x => decide (x ≠ c))) ∧
      (t.markCollapsed c).collapsedOption = some c := by
  set L := WaysToBeOption.iterPossible t.waysToBeOption with hL
  set w := fun i => (od.getWeights i).1 with hw
  have hnd : L.Nodup := by
    rw [hL, WaysToBeOption.iterPossible]
    exact (List.nodup_range _).filter _
  have hne : L ≠ [] := by
    intro h0
    rw [h0] at hr
    simp [sumCounts] at hr
  obtain ⟨c, hc⟩ := chooseGeSpec_total w r L 0 hne (by omega)
  refine ⟨c, hc, chooseGeSpec_mem w r L 0 c hc, ?_, rfl⟩
  rw [CollapsibleTile2D.collapseGatherRemoved]
  have h1 : (collapseScan w r L 0 none).1 = some c := by
    rw [collapseScan_fst]
    exact hc
  have h2 : (collapseScan w r L 0 none).2 = L.filter (fun x => decide (x ≠ c)) :=
    collapseScan_snd w r L 0 c hnd hc
  rw [← hL, ← hw]
  rcases hscan : collapseScan w r L 0 none with ⟨fst, snd⟩
  rw [hscan] at h1 h2
  simp only at h1 h2
  subst h1
  subst h2
  rfl

/-- Witness for C1 at a two-option tile with unit weights and draw `r = 1`. -/
theorem collapse_gather_removed_correct_witness :
    (1 : Nat) < sumCounts
        (fun i => ((PerOptionData.mk [] [(1, 0), (1, 0)]).getWeights i).1)
        (WaysToBeOption.iterPossible
          (CollapsibleTile2D.mk none 2 [[1, 1, 1, 1], [1, 1, 1, 1]] (2, 0) 0).waysToBeOption) ∧
      ∃ c, chooseGeSpec
          (fun i => ((PerOptionData.mk [] [(1, 0), (1, 0)]).getWeights i).1) 1
          (WaysToBeOption.iterPossible
            (CollapsibleTile2D.mk none 2 [[1, 1, 1, 1], [1, 1, 1, 1]] (2, 0) 0).waysToBeOption)
          0 = some c ∧
        c ∈ WaysToBeOption.iterPossible
          (CollapsibleTile2D.mk none 2 [[1, 1, 1, 1], [1, 1, 1, 1]] (2, 0) 0).waysToBeOption ∧
        (CollapsibleTile2D.mk none 2 [[1, 1, 1, 1], [1, 1, 1, 1]] (2, 0) 0).collapseGatherRemoved
            (PerOptionData.mk [] [(1, 0), (1, 0)]) 1 =
          some ((CollapsibleTile2D.mk none 2 [[1, 1, 1, 1], [1, 1, 1, 1]] (2, 0) 0).markCollapsed c,
            (WaysToBeOption.iterPossible
              (CollapsibleTile2D.mk none 2 [[1, 1, 1, 1], [1, 1, 1, 1]] (2, 0) 0).waysToBeOption).filter
              (fun x => decide (x ≠ c))) ∧
        ((CollapsibleTile2D.mk none 2 [[1, 1, 1, 1], [1, 1, 1, 1]] (2, 0) 0).markCollapsed
          c).collapsedOption = some c :=
  ⟨by decide,
    collapse_gather_removed_correct
      (CollapsibleTile2D.mk none 2 [[1, 1, 1, 1], [1, 1, 1, 1]] (2, 0) 0)
      (PerOptionData.mk [] [(1, 0), (1, 0)]) 1 (by decide)⟩

/-- Counterexample to C1 as stated: at a cell with two possible options of
count 1 each and draw `r = 1`, the code chooses option 0 (first running
total `1 ≥ r`) and removes option 1, while the rule of the claim (first
running total strictly greater than `r`) would choose option 1. -/
theorem collapse_gather_removed_strict_counterexample :
    (CollapsibleTile2D.mk none 2 [[1, 1, 1, 1], [1, 1, 1, 1]] (2, 0) 0).collapseGatherRemoved
        (PerOptionData.mk [] [(1, 0), (1, 0)]) 1 =
      some (CollapsibleTile2D.mk (some 0) 0 [[1, 1, 1, 1], [1, 1, 1, 1]] (0, 0) 0, [1]) ∧
      chooseStrictSpec
        (fun i => ((PerOptionData.mk [] [(1, 0), (1, 0)]).getWeights i).1) 1
        (WaysToBeOption.iterPossible [[1, 1, 1, 1], [1, 1, 1, 1]]) 0 = some 1 := by
  constructor
  · rfl
  · rfl

/-- `PropagateItem`: `(position, removed_option_index)`. -/
structure PropagateItem where
  position : GridPosition2D
  toRemove : Nat
deriving DecidableEq, Repr

/-- `GridMap2D` over collapsible tiles: size plus dense `Option` storage of
length `size.max_tile_count()`, indexed by `size.offset`. -/
structure GridMap2D where
  size : GridSize2D
  tiles : List (Option CollapsibleTile2D)
deriving DecidableEq, Repr

/-- `GridMap::get_data_at_position` (and the read of
`get_mut_data_at_position`): `none` for an out-of-bounds position or an empty
slot. -/
def GridMap2D.getDataAtPosition (g : GridMap2D) (p : GridPosition2D) :
    Option CollapsibleTile2D :=
  if g.size.isPositionValid p then g.tiles.getD (g.size.offset p) none else none

/-- Write-back of a tile mutated through `get_mut_data_at_position`. -/
def GridMap2D.setDataAtPosition (g : GridMap2D) (p : GridPosition2D)
    (t : CollapsibleTile2D) : GridMap2D :=
  { g with tiles := g.tiles.set (g.size.offset p) (some t) }

/-- Inner loop of `Propagator::propagate` over the options enabled in
`direction.opposite()` for the removed option: decrement each option from
`direction`; when the decrement eliminates the option, call `remove_option`
with its weights; fail with the neighbour's position when the tile is left
without compatible options; on elimination push a new propagate item for the
neighbour. -/
def propagateOptions (od : PerOptionData) (pos : GridPosition2D) (d : Direction2D) :
    CollapsibleTile2D → List PropagateItem → List Nat →
      Except GridPosition2D (CollapsibleTile2D × List PropagateItem)
  | tile, pushed, [] => .ok (tile, pushed)
  | tile, pushed, j :: rest =>
    let dec := WaysToBeOption.decrement tile.waysToBeOption j d
    let tile1 := { tile with waysToBeOption := dec.1 }
    let tile2 := if dec.2 then tile1.removeOption (od.getWeights j) else tile1
    if !tile2.hasCompatibleOptions then .error pos
    else
      let pushed1 := if dec.2 then pushed ++ [PropagateItem.mk pos j] else pushed
      propagateOptions od pos d tile2 pushed1 rest

/-- Outer loop of one `Propagator::propagate` worklist iteration over
`Direction2D::all()`: the neighbour to update is
`direction.opposite().march_step(item.position, size)`; skip when out of
bounds, empty or collapsed. -/
def propagateDirections (od : PerOptionData) (item : PropagateItem) :
    GridMap2D → List PropagateItem → List Direction2D →
      Except GridPosition2D (GridMap2D × List PropagateItem)
  | grid, pushed, [] => .ok (grid, pushed)
  | grid, pushed, d :: rest =>
    match d.opposite.marchStep item.position grid.size with
    | none => propagateDirections od item grid pushed rest
    | some n =>
      match grid.getDataAtPosition n with
      | none => propagateDirections od item grid pushed rest
      | some tile =>
        if tile.isCollapsed then propagateDirections od item grid pushed rest
        else
          match propagateOptions od n d tile pushed
              (od.getAllEnabledInDirection item.toRemove d.opposite) with
          | .error p => .error p
          | .ok (tile2, pushed2) =>
            propagateDirections od item (grid.setDataAtPosition n tile2) pushed2 rest

/-- One step of `Propagator::propagate`: processing of a single popped item,
returning the mutated grid together with the items pushed onto the worklist,
or the position of a neighbour left without compatible options. -/
def propagateStep (od : PerOptionData) (grid : GridMap2D) (item : PropagateItem) :
    Except GridPosition2D (GridMap2D × List PropagateItem) :=
  propagateDirections od item grid [] Direction2D.all

/-- Per-option handling as the claim words it: call `decrement(j, d)` on the
neighbour's ways table; when the decrement eliminates `j`, subtract the
weights of `j` and push the item `(neighbour, j)`; when the neighbour is left
with zero compatible options, fail with the neighbour's position `n`. -/
def propagateOptionSpecF (od : PerOptionData) (n : GridPosition2D) (d : Direction2D)
    (tp : CollapsibleTile2D × List PropagateItem) (j : Nat) :
    Except GridPosition2D (CollapsibleTile2D × List PropagateItem) :=
  let dec := WaysToBeOption.decrement tp.1.waysToBeOption j d
  let tile1 : CollapsibleTile2D := { tp.1 with waysToBeOption := dec.1 }
  let next : CollapsibleTile2D × List PropagateItem :=
    if dec.2 then (tile1.removeOption (od.getWeights j), tp.2 ++ [PropagateItem.mk n j])
    else (tile1, tp.2)
  if next.1.numOptions = 0 then Except.error n else Except.ok next

/-- Per-direction handling as the claim words it: visit the neighbour at
`d.opposite().march_step(item.position, size)`, skipping it when out of
bounds, empty or collapsed, and fold the per-option handling over
`get_all_enabled_in_direction(item.to_remove, d.opposite())`. -/
def propagateDirectionSpecF (od : PerOptionData) (item : PropagateItem)
    (st : GridMap2D × List PropagateItem) (d : Direction2D) :
    Except GridPosition2D (GridMap2D × List PropagateItem) :=
  match d.opposite.marchStep item.position st.1.size with
  | none => pure st
  | some n =>
    match st.1.getDataAtPosition n with
    | none => pure st
    | some tile =>
      if tile.isCollapsed then pure st
      else do
        let r ← (od.getAllEnabledInDirection item.toRemove d.opposite).foldlM
          (propagateOptionSpecF od n d) (tile, st.2)
        pure (st.1.setDataAtPosition n r.1, r.2)

/-- One propagation step as the claim words it: fold the per-direction
handling over `Direction2D::all()`. -/
def propagateStepSpec (od : PerOptionData) (grid : GridMap2D) (item : PropagateItem) :
    Except GridPosition2D (GridMap2D × List PropagateItem) :=
  Direction2D.all.foldlM (propagateDirectionSpecF od item) (grid, [])

theorem propagateOptions_eq_foldlM (od : PerOptionData) (pos : GridPosition2D)
    (d : Direction2D) :
    ∀ (l : List Nat) (tile : CollapsibleTile2D) (pushed : List PropagateItem),
      propagateOptions od pos d tile pushed l =
        l.foldlM (propagateOptionSpecF od pos d) (tile, pushed) := by
  intro l
  induction l with
  | nil => intro tile pushed; rfl
  | cons j rest ih =>
    intro tile pushed
    rw [List.foldlM_cons, propagateOptions]
    by_cases hdec : (WaysToBeOption.decrement tile.waysToBeOption j d).2
    · by_cases hzero :
        ({ tile with waysToBeOption := (WaysToBeOption.decrement tile.waysToBeOption j d).1
          }.removeOption (od.getWeights j)).numOptions = 0
      · simp only [propagateOptionSpecF, hdec, if_true, CollapsibleTile2D.hasCompatibleOptions,
          hzero, Nat.lt_irrefl, decide_False, Bool.not_false, if_pos]
        rfl
      · have hpos : 0 <
            ({ tile with waysToBeOption := (WaysToBeOption.decrement tile.waysToBeOption j d).1
              }.removeOption (od.getWeights j)).numOptions := Nat.pos_of_ne_zero hzero
        simp only [propagateOptionSpecF, hdec, if_true, CollapsibleTile2D.hasCompatibleOptions,
          hpos, decide_True, Bool.not_true, Bool.false_eq_true, if_false, if_neg hzero]
        rw [ih]
        rfl
    · rw [Bool.not_eq_true] at hdec
      by_cases hzero :
        ({ tile with waysToBeOption := (WaysToBeOption.decrement tile.waysToBeOption j d).1
          } : CollapsibleTile2D).numOptions = 0
      · simp only [propagateOptionSpecF, hdec, Bool.false_eq_true, if_false,
          CollapsibleTile2D.hasCompatibleOptions, hzero, Nat.lt_irrefl, decide_False,
          Bool.not_false, if_pos]
        rfl
      · have hpos : 0 <
            ({ tile with waysToBeOption := (WaysToBeOption.decrement tile.waysToBeOption j d).1
              } : CollapsibleTile2D).numOptions := Nat.pos_of_ne_zero hzero
        simp only [propagateOptionSpecF, hdec, Bool.false_eq_true, if_false,
          CollapsibleTile2D.hasCompatibleOptions, hpos, decide_True, Bool.not_true,
          if_neg hzero]
        rw [ih]
        rfl

/-- C2: one worklist iteration of `Propagator::propagate` behaves exactly as
the claim describes: per direction it updates the neighbour at
`d.opposite().march_step(item.position, size)` (skipping out-of-bounds, empty
and collapsed neighbours), decrements `(j, d)` for every
`j ∈ get_all_enabled_in_direction(item.to_remove, d.opposite())`, subtracts
weights and pushes `(neighbour, j)` on elimination, and fails with the
neighbour's position when it is left without compatible options. -/
theorem propagate_step_matches_spec (od : PerOptionData) (grid : GridMap2D)
    (item : PropagateItem) :
    propagateStep od grid item = propagateStepSpec od grid item := by
  rw [propagateStep, propagateStepSpec]
  have main : ∀ (ds : List Direction2D) (g : GridMap2D) (pushed : List PropagateItem),
      propagateDirections od item g pushed ds =
        ds.foldlM (propagateDirectionSpecF od item) (g, pushed) := by
    intro ds
    induction ds with
    | nil => intro g pushed; rfl
    | cons d rest ih =>
      intro g pushed
      rw [List.foldlM_cons, propagateDirections]
      show _ = propagateDirectionSpecF od item (g, pushed) d >>= _
      rw [propagateDirectionSpecF]
      cases hstep : d.opposite.marchStep item.position g.size with
      | none =>
        simp only
        rw [ih]
        rfl
      | some n =>
        simp only
        cases hdata : g.getDataAtPosition n with
        | none =>
          simp only
          rw [ih]
          rfl
        | some tile =>
          simp only
          by_cases hcol : tile.isCollapsed
          · simp only [hcol, if_true]
            rw [ih]
            rfl
          · simp only [hcol, Bool.false_eq_true, if_false]
            rw [← propagateOptions_eq_foldlM]
            cases propagateOptions od n d tile pushed
                (od.getAllEnabledInDirection item.toRemove d.opposite) with
            | error p => rfl
            | ok r =>
              obtain ⟨tile2, pushed2⟩ := r
              show propagateDirections od item (g.setDataAtPosition n tile2) pushed2 rest = _
              rw [ih]
              rfl
  exact main Direction2D.all grid []

/-- Stable insertion of an element into a list already sorted by `cmp`: the
new element goes before the first entry that is not strictly smaller. -/
def insertByCmp {α : Type} (cmp : α → α → Ordering) (x : α) : List α → List α
  | [] => [x]
  | y :: ys => if cmp y x = Ordering.lt then y :: insertByCmp cmp x ys else x :: y :: ys

/-- Stable sort by a comparator, modelling the stable `slice::sort_by` used
by `PositionQueue::sort_elements` (extensionally equal to it for the lawful
lexicographic comparators below). -/
def sortByCmp {α : Type} (cmp : α → α → Ordering) (l : List α) : List α :=
  l.foldr (fun x acc => insertByCmp cmp x acc) []

/-- The `(UpRight, Rowwise)` arm of `PositionQueueProcession2D::cmp_fun` in
`src/gen/collapse/queue/position.rs`:
`a.y().cmp(&b.y()).then_with(|| a.x().cmp(&b.x()))`. -/
def cmpUpRightRowwiseQueueRs (a b : GridPosition2D) : Ordering :=
  (compare a.y b.y).then (compare a.x b.x)

/-- The `(UpLeft, Rowwise)` arm of `PositionQueueProcession2D::cmp_fun`
(identical in both revisions):
`a.y().cmp(&b.y()).then_with(|| a.x().cmp(&b.x()))`. -/
def cmpUpLeftRowwise (a b : GridPosition2D) : Ordering :=
  (compare a.y b.y).then (compare a.x b.x)

/-- The `(UpRight, Rowwise)` arm of `PositionQueueProcession2D::cmp_fun` in
`src/gen/collapse/two_d.rs` (the other revision):
`a.y().cmp(&b.y()).then_with(|| b.x().cmp(&a.x()))`. -/
def cmpUpRightRowwiseTwoD (a b : GridPosition2D) : Ordering :=
  (compare a.y b.y).then (compare b.x a.x)

/-- `PositionQueue` state: the pending positions and the dirty flag. -/
structure PositionQueueState where
  positions : List GridPosition2D
  changed : Bool
deriving DecidableEq, Repr

/-- The freshly constructed queue: no positions, clean. -/
def PositionQueueState.empty : PositionQueueState :=
  ⟨[], false⟩

/-- `PositionQueue::update_queue`: push the position unless already present;
set the dirty flag. -/
def PositionQueueState.updateQueue (s : PositionQueueState) (p : GridPosition2D) :
    PositionQueueState :=
  if p ∈ s.positions then { s with changed := true }
  else { positions := s.positions ++ [p], changed := true }

/-- `PositionQueue::initialize_queue`: `update_queue` for every tile in
order. -/
def PositionQueueState.initializeQueue (s : PositionQueueState)
    (tiles : List GridPosition2D) : PositionQueueState :=
  tiles.foldl PositionQueueState.updateQueue s

/-- `PositionQueue::sort_elements`: sort by the comparator, then reverse. -/
def PositionQueueState.sortElements (cmp : GridPosition2D → GridPosition2D → Ordering)
    (s : PositionQueueState) : PositionQueueState :=
  { s with positions := (sortByCmp cmp s.positions).reverse }

/-- `PositionQueue::get_next_position`: re-sort when the dirty flag is set
(the flag is never cleared), then pop from the back. -/
def PositionQueueState.getNextPosition (cmp : GridPosition2D → GridPosition2D → Ordering)
    (s : PositionQueueState) : Option GridPosition2D × PositionQueueState :=
  let s1 := if s.changed then s.sortElements cmp else s
  (s1.positions.getLast?, { s1 with positions := s1.positions.dropLast })

/-- Successive results of `get_next_position`, with explicit fuel. -/
def drainAux (cmp : GridPosition2D → GridPosition2D → Ordering) :
    Nat → PositionQueueState → List GridPosition2D
  | 0, _ => []
  | fuel + 1, s =>
    match PositionQueueState.getNextPosition cmp s with
    | (none, _) => []
    | (some p, s1) => p :: drainAux cmp fuel s1

/-- All positions a `PositionQueue` yields until exhaustion (one pop per
pending position). -/
def drainQueue (cmp : GridPosition2D → GridPosition2D → Ordering)
    (s : PositionQueueState) : List GridPosition2D :=
  drainAux cmp s.positions.length s

/-- `GridSize2D::get_all_possible_positions`: outer loop over `x`, inner
over `y`. -/
def GridSize2D.getAllPossiblePositions (s : GridSize2D) : List GridPosition2D :=
  (List.range s.x).foldr (fun x acc => ((List.range s.y).map (fun y => ⟨x, y⟩)) ++ acc) []

/-- C3: on the 9 positions of a 3×3 grid, the queue built from the
`(UpRight, Rowwise)` comparator of `gen/collapse/two_d.rs` pops exactly the
order the claim states, while the queue built from the `(UpRight, Rowwise)`
comparator of `queue/position.rs` pops the `(UpLeft, Rowwise)` order
(that arm is textually identical to the `UpLeft` arm, a slip contradicting
the enum documentation and the other revision). -/
theorem positionQueue_upRight_rowwise_3x3 :
    drainQueue cmpUpRightRowwiseTwoD
        (PositionQueueState.empty.initializeQueue
          ((GridSize2D.mk 3 3).getAllPossiblePositions)) =
      [⟨2, 0⟩, ⟨1, 0⟩, ⟨0, 0⟩, ⟨2, 1⟩, ⟨1, 1⟩, ⟨0, 1⟩, ⟨2, 2⟩, ⟨1, 2⟩, ⟨0, 2⟩] ∧
    drainQueue cmpUpRightRowwiseQueueRs
        (PositionQueueState.empty.initializeQueue
          ((GridSize2D.mk 3 3).getAllPossiblePositions)) =
      [⟨0, 0⟩, ⟨1, 0⟩, ⟨2, 0⟩, ⟨0, 1⟩, ⟨1, 1⟩, ⟨2, 1⟩, ⟨0, 2⟩, ⟨1, 2⟩, ⟨2, 2⟩] ∧
    cmpUpRightRowwiseQueueRs = cmpUpLeftRowwise := by
  refine ⟨by decide, by decide, rfl⟩

/-- The noise sampler `entrophy_uniform` (`Uniform::<f32>::new(0., 0.00001)`)
used by `new_from_frequency_with_entrophy` for every uncollapsed cell of an
entropy-queue run: a unit-interval draw `u ∈ [0, 1)` is scaled into
`[0, 0.00001)`. -/
def entrophyUniformNoise (u : ℚ) : ℚ :=
  u * (1 / 100000)

/-- The `EntrophyUniform` helper (`Uniform::<u8>::new(0, 124)` scaled by
`OrderedFloat::EPSILON`), defined next to the entropy queue but not used by
its population path in this revision: the integer draw `k < 124` yields the
noise `k * 0.00001`. -/
def entrophyUniformHelperNoise (k : Nat) : ℚ :=
  k * epsQ

/-- The claim's assertion that the sampled entropy noise can exceed
`0.00001`. -/
def entrophyNoiseCanExceed : Prop :=
  ∃ u : ℚ, 0 ≤ u ∧ u < 1 ∧ 1 / 100000 < entrophyUniformNoise u

/-- Counterexample to C5 as stated: the noise attached to uncollapsed cells
of an entropy-queue run comes from `entrophy_uniform`, whose range is
`[0, 0.00001)`; no draw ever exceeds `0.00001`, while the claim asserts the
noise can exceed it (with range `[0, 0.00001 * 124)`). -/
theorem entrophy_noise_cannot_exceed : ¬ entrophyNoiseCanExceed := by
  rintro ⟨u, hu0, hu1, hgt⟩
  have : entrophyUniformNoise u < 1 / 100000 := by
    rw [entrophyUniformNoise]
    nlinarith
  linarith

/-- C5 (amended): every uncollapsed cell created for an entropy-queue run
receives its noise from `entrophy_uniform`, uniform on `[0, 0.00001)`: the
noise is nonnegative, strictly below `0.00001` (hence strictly below
`0.00124`) and never exceeds `0.00001`. The separate `EntrophyUniform`
sampler (used in the other revision) draws `k < 124` and yields
`k * 0.00001`, strictly below `0.00124` and able to exceed `0.00001`. -/
theorem entrophy_noise_range (u : ℚ) (k : Nat) (hu0 : 0 ≤ u) (hu1 : u < 1)
    (hk : k < 124) :
    0 ≤ entrophyUniformNoise u ∧ entrophyUniformNoise u < 1 / 100000 ∧
      entrophyUniformNoise u < 124 / 100000 ∧
      entrophyUniformHelperNoise k < 124 / 100000 ∧
      1 / 100000 < entrophyUniformHelperNoise 2 := by
  have h1 : entrophyUniformNoise u < 1 / 100000 := by
    rw [entrophyUniformNoise]
    nlinarith
  have hkq : (k : ℚ) < 124 := by exact_mod_cast hk
  refine ⟨?_, h1, by linarith, ?_, ?_⟩
  · rw [entrophyUniformNoise]
    positivity
  · rw [entrophyUniformHelperNoise, epsQ]
    nlinarith
  · rw [entrophyUniformHelperNoise, epsQ]
    norm_num

/-- Witness for C5 at `u = 1/2` and `k = 2`. -/
theorem entrophy_noise_range_witness :
    (0 : ℚ) ≤ 1 / 2 ∧ (1 / 2 : ℚ) < 1 ∧ (2 : Nat) < 124 ∧
      (0 ≤ entrophyUniformNoise (1 / 2) ∧ entrophyUniformNoise (1 / 2) < 1 / 100000 ∧
        entrophyUniformNoise (1 / 2) < 124 / 100000 ∧
        entrophyUniformHelperNoise 2 < 124 / 100000 ∧
        1 / 100000 < entrophyUniformHelperNoise 2) :=
  ⟨by norm_num, by norm_num, by norm_num,
    entrophy_noise_range (1 / 2) 2 (by norm_num) (by norm_num) (by norm_num)⟩

/-- An `EntrophyItem`: `(entropy, position)`. `OrderedFloat::cmp` compares
the raw stored values exactly (`self.get().eq(&other.get())`, then
`partial_cmp`), modelled by the exact order on `ℚ`. -/
abbrev EntrophyItem := ℚ × GridPosition2D

/-- `EntrophyItem::cmp`: entropy first, then the lexicographic position
order of `GridPosition2D::cmp`. -/
def entrophyItemCmp (a b : EntrophyItem) : Ordering :=
  (compare a.1 b.1).then ((compare a.2.x b.2.x).then (compare a.2.y b.2.y))

/-- Lookup in `by_pos` (a hash map, modelled as an association list with
distinct keys). -/
def lookupPos (l : List (GridPosition2D × ℚ)) (p : GridPosition2D) : Option ℚ :=
  (l.find? (fun kv => decide (kv.1 = p))).map (fun kv => kv.2)

/-- `BTreeSet::insert`: no-op when an equal element is present (`Ord`
equality of items coincides with `=` here), sorted insertion otherwise. -/
def btreeInsert (x : EntrophyItem) (l : List EntrophyItem) : List EntrophyItem :=
  if x ∈ l then l else insertByCmp entrophyItemCmp x l

/-- `EntrophyQueue` state: the ordered `by_entrophy` set and the `by_pos`
map. -/
structure EntrophyQueueState where
  byEntrophy : List EntrophyItem
  byPos : List (GridPosition2D × ℚ)
deriving DecidableEq, Repr

/-- The fresh queue of `EntrophyQueue::default`. -/
def EntrophyQueueState.empty : EntrophyQueueState :=
  ⟨[], []⟩

/-- `EntrophyQueue::update_queue` with the tile's computed entropy `e` at
position `p`: remove the position's stale entry (recorded in `by_pos`) from
`by_entrophy`, then insert the new pair into both structures; map removal
and single-element set removal are modelled by filtering, equivalent on the
distinct keys the invariant provides. -/
def EntrophyQueueState.updateQueue (s : EntrophyQueueState) (p : GridPosition2D) (e : ℚ) :
    EntrophyQueueState :=
  let be1 :=
    match lookupPos s.byPos p with
    | some eOld => s.byEntrophy.filter (fun it => decide (it ≠ (eOld, p)))
    | none => s.byEntrophy
  ⟨btreeInsert (e, p) be1, (p, e) :: s.byPos.filter (fun kv => decide (kv.1 ≠ p))⟩

/-- `EntrophyQueue::get_next_position`: pop the minimal item of
`by_entrophy` and drop its position from `by_pos`. -/
def EntrophyQueueState.getNextPosition (s : EntrophyQueueState) :
    Option GridPosition2D × EntrophyQueueState :=
  match s.byEntrophy with
  | [] => (none, s)
  | it :: rest => (some it.2, ⟨rest, s.byPos.filter (fun kv => decide (kv.1 ≠ it.2))⟩)

/-- `EntrophyQueue::initialize_queue`: `update_queue` for every tile. -/
def EntrophyQueueState.initializeQueue (s : EntrophyQueueState)
    (tiles : List (GridPosition2D × ℚ)) : EntrophyQueueState :=
  tiles.foldl (fun st t => st.updateQueue t.1 t.2) s

/-- One public call against an `EntrophyQueue` (the tile argument of
`update_queue` enters only through its computed entropy). -/
inductive EntrophyQueueOp where
  | update (p : GridPosition2D) (e : ℚ)
  | pop
  | init (tiles : List (GridPosition2D × ℚ))

/-- Apply one call to the queue state. -/
def EntrophyQueueState.applyOp (s : EntrophyQueueState) :
    EntrophyQueueOp → EntrophyQueueState
  | .update p e => s.updateQueue p e
  | .pop => (s.getNextPosition).2
  | .init tiles => s.initializeQueue tiles

/-- The queue state reached by a sequence of calls from the fresh queue. -/
def runQueueOps (ops : List EntrophyQueueOp) : EntrophyQueueState :=
  ops.foldl EntrophyQueueState.applyOp EntrophyQueueState.empty

/-- Consistency of the two structures: no position occurs twice in
`by_entrophy`, the `by_pos` keys are distinct, and `by_pos` holds exactly
the positions occurring in `by_entrophy`, each mapped to the entropy of its
entry. -/
def EntrophyQueueState.Consistent (s : EntrophyQueueState) : Prop :=
  (s.byEntrophy.map Prod.snd).Nodup ∧ (s.byPos.map Prod.fst).Nodup ∧
    ∀ e p, (e, p) ∈ s.byEntrophy ↔ (p, e) ∈ s.byPos

theorem insertByCmp_perm {α : Type} (cmp : α → α → Ordering) (x : α) :
    ∀ l : List α, List.Perm (insertByCmp cmp x l) (x :: l) := by
  intro l
  induction l with
  | nil => exact List.Perm.refl _
  | cons y ys ih =>
    rw [insertByCmp]
    split
    · exact (ih.cons y).trans (List.Perm.swap x y ys)
    · exact List.Perm.refl _

theorem lookupPos_some_mem (l : List (GridPosition2D × ℚ)) (p : GridPosition2D) (e : ℚ)
    (h : lookupPos l p = some e) : (p, e) ∈ l := by
  rw [lookupPos] at h
  cases hfind : l.find? (fun kv => decide (kv.1 = p)) with
  | none =>
    rw [hfind] at h
    exact Option.noConfusion h
  | some kv =>
    rw [hfind] at h
    have hval : kv.2 = e := Option.some.inj h
    have hmem := List.mem_of_find?_eq_some hfind
    have hp := List.find?_some hfind
    simp only [decide_eq_true_eq] at hp
    rw [← hp, ← hval]
    exact hmem

theorem lookupPos_none_not_mem (l : List (GridPosition2D × ℚ)) (p : GridPosition2D)
    (h : lookupPos l p = none) : ∀ e, (p, e) ∉ l := by
  intro e hmem
  rw [lookupPos, Option.map_eq_none'] at h
  rw [List.find?_eq_none] at h
  have hc := h (p, e) hmem
  simp at hc

theorem keys_nodup_unique (l : List (GridPosition2D × ℚ))
    (h : (l.map Prod.fst).Nodup) (p : GridPosition2D) (a b : ℚ)
    (ha : (p, a) ∈ l) (hb : (p, b) ∈ l) : a = b := by
  induction l with
  | nil => simp at ha
  | cons kv tl ih =>
    rw [List.map_cons, List.nodup_cons] at h
    rcases List.mem_cons.mp ha with ha1 | ha2
    · rcases List.mem_cons.mp hb with hb1 | hb2
      · rw [← ha1] at hb1
        cases hb1
        rfl
      · exfalso
        apply h.1
        rw [← ha1]
        exact List.mem_map.mpr ⟨(p, b), hb2, rfl⟩
    · rcases List.mem_cons.mp hb with hb1 | hb2
      · exfalso
        apply h.1
        rw [← hb1]
        exact List.mem_map.mpr ⟨(p, a), ha2, rfl⟩
      · exact ih h.2 ha2 hb2

theorem updateQueue_consistent (s : EntrophyQueueState) (p : GridPosition2D) (e : ℚ)
    (h : s.Consistent) : (s.updateQueue p e).Consistent := by
  obtain ⟨hbe, hbp, hcorr⟩ := h
  have hbp_filter_mem : ∀ (q : GridPosition2D) (f : ℚ),
      (q, f) ∈ s.byPos.filter (fun kv => decide (kv.1 ≠ p)) ↔ ((q, f) ∈ s.byPos ∧ q ≠ p) := by
    intro q f
    constructor
    · intro hm
      rw [List.mem_filter] at hm
      exact ⟨hm.1, of_decide_eq_true hm.2⟩
    · intro hm
      rw [List.mem_filter]
      exact ⟨hm.1, decide_eq_true hm.2⟩
  have hbp_filter_keys :
      ((s.byPos.filter (fun kv => decide (kv.1 ≠ p))).map Prod.fst).Nodup :=
    ((List.filter_sublist _).map Prod.fst).nodup hbp
  have hp_notin_filter :
      p ∉ (s.byPos.filter (fun kv => decide (kv.1 ≠ p))).map Prod.fst := by
    intro hmem
    obtain ⟨kv, hkv, hfst⟩ := List.mem_map.mp hmem
    rw [List.mem_filter] at hkv
    exact absurd hfst (by simpa using hkv.2)
  cases hlook : lookupPos s.byPos p with
  | some eOld =>
    have hbe1_mem : ∀ (f : ℚ) (q : GridPosition2D),
        (f, q) ∈ s.byEntrophy.filter (fun it => decide (it ≠ (eOld, p))) ↔
          ((f, q) ∈ s.byEntrophy ∧ (f, q) ≠ (eOld, p)) := by
      intro f q
      constructor
      · intro hm
        rw [List.mem_filter] at hm
        exact ⟨hm.1, of_decide_eq_true hm.2⟩
      · intro hm
        rw [List.mem_filter]
        exact ⟨hm.1, decide_eq_true hm.2⟩
    have hsnd_notin : ∀ f : ℚ,
        (f, p) ∉ s.byEntrophy.filter (fun it => decide (it ≠ (eOld, p))) := by
      intro f hf
      rw [hbe1_mem] at hf
      have hmem := (hcorr f p).mp hf.1
      have hold := lookupPos_some_mem s.byPos p eOld hlook
      have : f = eOld := keys_nodup_unique s.byPos hbp p f eOld hmem hold
      exact hf.2 (by rw [this])
    have hbe1_nodup :
        ((s.byEntrophy.filter (fun it => decide (it ≠ (eOld, p)))).map Prod.snd).Nodup :=
      ((List.filter_sublist _).map Prod.snd).nodup hbe
    have hnew_notin :
        ((e, p) : EntrophyItem) ∉ s.byEntrophy.filter (fun it => decide (it ≠ (eOld, p))) :=
      hsnd_notin e
    have hperm : List.Perm
        (btreeInsert (e, p) (s.byEntrophy.filter (fun it => decide (it ≠ (eOld, p)))))
        ((e, p) :: s.byEntrophy.filter (fun it => decide (it ≠ (eOld, p)))) := by
      rw [btreeInsert, if_neg hnew_notin]
      exact insertByCmp_perm _ _ _
    refine ⟨?_, ?_, ?_⟩
    · show ((s.updateQueue p e).byEntrophy.map Prod.snd).Nodup
      have heq : (s.updateQueue p e).byEntrophy =
          btreeInsert (e, p) (s.byEntrophy.filter (fun it => decide (it ≠ (eOld, p)))) := by
        simp only [EntrophyQueueState.updateQueue, hlook]
      rw [heq, (hperm.map Prod.snd).nodup_iff, List.map_cons, List.nodup_cons]
      refine ⟨?_, hbe1_nodup⟩
      intro hmem
      obtain ⟨it, hit, hsnd⟩ := List.mem_map.mp hmem
      obtain ⟨f, q⟩ := it
      cases hsnd
      exact hsnd_notin f hit
    · show ((s.updateQueue p e).byPos.map Prod.fst).Nodup
      have heq : (s.updateQueue p e).byPos =
          (p, e) :: s.byPos.filter (fun kv => decide (kv.1 ≠ p)) := by
        simp only [EntrophyQueueState.updateQueue, hlook]
      rw [heq, List.map_cons, List.nodup_cons]
      exact ⟨hp_notin_filter, hbp_filter_keys⟩
    · intro f q
      have heqE : (s.updateQueue p e).byEntrophy =
          btreeInsert (e, p) (s.byEntrophy.filter (fun it => decide (it ≠ (eOld, p)))) := by
        simp only [EntrophyQueueState.updateQueue, hlook]
      have heqP : (s.updateQueue p e).byPos =
          (p, e) :: s.byPos.filter (fun kv => decide (kv.1 ≠ p)) := by
        simp only [EntrophyQueueState.updateQueue, hlook]
      rw [heqE, heqP, hperm.mem_iff, List.mem_cons, List.mem_cons, hbe1_mem, hbp_filter_mem]
      by_cases hq : q = p
      · subst hq
        constructor
        · rintro (h1 | h2)
          · cases h1
            exact Or.inl rfl
          · exact absurd (hbe1_mem f q |>.mpr h2) (hsnd_notin f)
        · rintro (h1 | h2)
          · cases h1
            exact Or.inl rfl
          · exact absurd rfl h2.2
      · constructor
        · rintro (h1 | h2)
          · cases h1
            exact absurd rfl hq
          · exact Or.inr ⟨(hcorr f q).mp h2.1, hq⟩
        · rintro (h1 | h2)
          · cases h1
            exact absurd rfl hq
          · refine Or.inr ⟨(hcorr f q).mpr h2.1, ?_⟩
            intro hcon
            apply hq
            exact congrArg Prod.snd hcon
  | none =>
    have hsnd_notin : ∀ f : ℚ, (f, p) ∉ s.byEntrophy := by
      intro f hf
      exact lookupPos_none_not_mem s.byPos p hlook f ((hcorr f p).mp hf)
    have hnew_notin : ((e, p) : EntrophyItem) ∉ s.byEntrophy := hsnd_notin e
    have hperm : List.Perm (btreeInsert (e, p) s.byEntrophy) ((e, p) :: s.byEntrophy) := by
      rw [btreeInsert, if_neg hnew_notin]
      exact insertByCmp_perm _ _ _
    refine ⟨?_, ?_, ?_⟩
    · show ((s.updateQueue p e).byEntrophy.map Prod.snd).Nodup
      have heq : (s.updateQueue p e).byEntrophy = btreeInsert (e, p) s.byEntrophy := by
        simp only [EntrophyQueueState.updateQueue, hlook]
      rw [heq, (hperm.map Prod.snd).nodup_iff, List.map_cons, List.nodup_cons]
      refine ⟨?_, hbe⟩
      intro hmem
      obtain ⟨it, hit, hsnd⟩ := List.mem_map.mp hmem
      obtain ⟨f, q⟩ := it
      cases hsnd
      exact hsnd_notin f hit
    · show ((s.updateQueue p e).byPos.map Prod.fst).Nodup
      have heq : (s.updateQueue p e).byPos =
          (p, e) :: s.byPos.filter (fun kv => decide (kv.1 ≠ p)) := by
        simp only [EntrophyQueueState.updateQueue, hlook]
      rw [heq, List.map_cons, List.nodup_cons]
      exact ⟨hp_notin_filter, hbp_filter_keys⟩
    · intro f q
      have heqE : (s.updateQueue p e).byEntrophy = btreeInsert (e, p) s.byEntrophy := by
        simp only [EntrophyQueueState.updateQueue, hlook]
      have heqP : (s.updateQueue p e).byPos =
          (p, e) :: s.byPos.filter (fun kv => decide (kv.1 ≠ p)) := by
        simp only [EntrophyQueueState.updateQueue, hlook]
      rw [heqE, heqP, hperm.mem_iff, List.mem_cons, List.mem_cons, hbp_filter_mem]
      by_cases hq : q = p
      · subst hq
        constructor
        · rintro (h1 | h2)
          · cases h1
            exact Or.inl rfl
          · exact absurd h2 (hsnd_notin f)
        · rintro (h1 | h2)
          · cases h1
            exact Or.inl rfl
          · exact absurd rfl h2.2
      · constructor
        · rintro (h1 | h2)
          · cases h1
            exact absurd rfl hq
          · exact Or.inr ⟨(hcorr f q).mp h2, hq⟩
        · rintro (h1 | h2)
          · cases h1
            exact absurd rfl hq
          · exact Or.inr ((hcorr f q).mpr h2.1)

theorem getNextPosition_consistent (s : EntrophyQueueState) (h : s.Consistent) :
    ((s.getNextPosition).2).Consistent := by
  obtain ⟨hbe, hbp, hcorr⟩ := h
  cases hq : s.byEntrophy with
  | nil =>
    have : (s.getNextPosition).2 = s := by
      simp only [EntrophyQueueState.getNextPosition, hq]
    rw [this]
    exact ⟨hbe, hbp, hcorr⟩
  | cons it rest =>
    have heq : (s.getNextPosition).2 =
        ⟨rest, s.byPos.filter (fun kv => decide (kv.1 ≠ it.2))⟩ := by
      simp only [EntrophyQueueState.getNextPosition, hq]
    rw [heq]
    rw [hq, List.map_cons, List.nodup_cons] at hbe
    refine ⟨hbe.2, ((List.filter_sublist _).map Prod.fst).nodup hbp, ?_⟩
    intro f q
    have hcorr2 : ∀ (f : ℚ) (q : GridPosition2D),
        (f, q) ∈ it :: rest ↔ (q, f) ∈ s.byPos := by
      intro f q
      rw [← hq]
      exact hcorr f q
    by_cases hqit : q = it.2
    · subst hqit
      constructor
      · intro hmem
        exact absurd (List.mem_map.mpr ⟨(f, it.2), hmem, rfl⟩) hbe.1
      · intro hmem
        rw [List.mem_filter] at hmem
        exact absurd rfl (of_decide_eq_true hmem.2)
    · constructor
      · intro hmem
        rw [List.mem_filter]
        refine ⟨(hcorr2 f q).mp (List.mem_cons_of_mem _ hmem), decide_eq_true hqit⟩
      · intro hmem
        rw [List.mem_filter] at hmem
        rcases List.mem_cons.mp ((hcorr2 f q).mpr hmem.1) with h1 | h2
        · exact absurd (congrArg Prod.snd h1) hqit
        · exact h2

theorem initializeQueue_consistent (tiles : List (GridPosition2D × ℚ)) :
    ∀ (s : EntrophyQueueState), s.Consistent → (s.initializeQueue tiles).Consistent := by
  induction tiles with
  | nil => intro s h; exact h
  | cons t rest ih =>
    intro s h
    exact ih _ (updateQueue_consistent s t.1 t.2 h)

theorem applyOp_consistent (s : EntrophyQueueState) (op : EntrophyQueueOp)
    (h : s.Consistent) : (s.applyOp op).Consistent := by
  cases op with
  | update p e => exact updateQueue_consistent s p e h
  | pop => exact getNextPosition_consistent s h
  | init tiles => exact initializeQueue_consistent tiles s h

/-- C10: after every sequence of `initialize_queue`, `update_queue` and
`get_next_position` calls from the fresh queue, `by_pos` and `by_entrophy`
stay consistent: no position occurs in two `by_entrophy` entries, the
`by_pos` keys are distinct, and `by_pos` holds exactly the positions of
`by_entrophy`, each mapped to the entropy of its unique entry — so
`update_queue` on an already-queued position replaces its old entry instead
of duplicating it. -/
theorem entrophy_queue_consistent (ops : List EntrophyQueueOp) :
    (runQueueOps ops).Consistent := by
  have haux : ∀ (l : List EntrophyQueueOp) (s : EntrophyQueueState), s.Consistent →
      (l.foldl EntrophyQueueState.applyOp s).Consistent := by
    intro l
    induction l with
    | nil => intro s h; exact h
    | cons op rest ih =>
      intro s h
      exact ih _ (applyOp_consistent s op h)
  exact haux ops EntrophyQueueState.empty ⟨List.nodup_nil, List.nodup_nil, by simp [EntrophyQueueState.empty]⟩

end GridForge
